import Mathlib

/-!
Verification of the timeslice engine (src/timeslice/timeslice.py).

The development shallowly embeds the two components of the engine:

* The Window class: a fixed-capacity FIFO buffer of rows with relative
  addressing, lazy derived-column evaluation and memoization
  (Window.push, Window.pop, Window.__getitem__).

* The TimeSliceData iterator: pre-roll, fill, main and drain phases,
  row validation, filtering and type-guessing casts
  (TimeSliceData.__iter__, _read_next, _guess_and_cast, _guess_type).

Python dictionaries are embedded as association lists, Python ints as Int,
buffer contents as lists of rows.  Derived-column functions receive the
window object and may mutate it; they are embedded as an abstract type F
together with an evaluation oracle
evalF : F -> Window F -> Window F x Except WErr PyVal
returning the mutated window and either a value or the raised exception.

The numeric parser pyParseFloat models the float(...) builtin on the
integer literals used throughout; none of the verified claims depend on
the exact domain of the float parser.
-/

namespace Timeslice

/-- Casted cell values: the result of `float(value)` or of keeping the raw
string representation. Fractional floats do not occur in the verified
claims, so numbers are carried as integers. -/
inductive PyVal where
  | num (n : Int)
  | str (s : String)
deriving DecidableEq

/-- The per-column type cached by TimeSliceData._types: the result of
_guess_type, either float or the original (string) class. -/
inductive PyType where
  | float
  | strT
deriving DecidableEq

/-- Ordered-dictionary lookup (Python `d[k]` / `k in d` on the embedded
association lists). -/
def odGet {κ β : Type} [DecidableEq κ] (l : List (κ × β)) (k : κ) : Option β :=
  (l.find? (fun p => decide (p.1 = k))).map (·.2)

/-- Ordered-dictionary assignment `d[k] = v`: an existing key keeps its
position and gets the new value, a new key is appended (Python dict /
OrderedDict assignment semantics). -/
def odSet {κ β : Type} [DecidableEq κ] (l : List (κ × β)) (k : κ) (v : β) : List (κ × β) :=
  match l with
  | [] => [(k, v)]
  | (k', v') :: rest => if k' = k then (k, v) :: rest else (k', v') :: odSet rest k v

/-- A casted row: a Python dict from column name to value. -/
abbrev Row := List (String × PyVal)

/-- A raw row as produced by csv.DictReader: keys are column names, with
`none` standing for the restkey `None` that collects overflow fields of a
too-long line. -/
abbrev RawRow := List (Option String × String)

/-- The TimeSliceData._types cache mapping column keys to guessed types. -/
abbrev Types := List (Option String × PyType)

/-- Digit run parser used by pyParseFloat. -/
def digitsToNat : List Char → Option Nat
  | [] => none
  | cs => cs.foldlM (fun acc c => if c.isDigit then some (acc * 10 + (c.toNat - 48)) else none) 0

/-- Model of the Python float(...) builtin on the values the engine sees:
an optional minus sign followed by a digit run parses, everything else
raises ValueError (modelled as none). -/
def pyParseFloat (s : String) : Option Int :=
  match s.data with
  | '-' :: rest => (digitsToNat rest).map (fun n => -(n : Int))
  | cs => (digitsToNat cs).map (fun n => (n : Int))

/-- TimeSliceData._guess_type: try float(obj) and fall back to the class of
the original (string) representation. -/
def guessType (s : String) : PyType :=
  if (pyParseFloat s).isSome then .float else .strT

/-- Applying a cached type to a raw value, `self._types[key](value)`:
float(value) may raise (none); str(value) on a string never does. -/
def castVal (t : PyType) (s : String) : Option PyVal :=
  match t with
  | .float => (pyParseFloat s).map .num
  | .strT => some (.str s)

/-- TimeSliceData._guess_and_cast: walk the row items, guess and cache a
type for each unseen column, cast each value with the cached type.  A cast
failure raises immediately (second component none); type-cache updates made
before the failure persist, as the mutation of self._types does.  Every
call site applies this to a row that already passed the `None in row`
validation, so the casted dict keeps the (string) keys; the getD only
peels the Option of the raw-key encoding. -/
def castRow (t : Types) : RawRow → Types × Option Row
  | [] => (t, some [])
  | (k, v) :: rest =>
    match odGet t k with
    | some ty =>
      match castVal ty v with
      | none => (t, none)
      | some cv =>
        match castRow t rest with
        | (t2, none) => (t2, none)
        | (t2, some r) => (t2, some ((k.getD "", cv) :: r))
    | none =>
      match castVal (guessType v) v with
      | none => (odSet t k (guessType v), none)
      | some cv =>
        match castRow (odSet t k (guessType v)) rest with
        | (t2, none) => (t2, none)
        | (t2, some r) => (t2, some ((k.getD "", cv) :: r))

/-! ## The Window component -/

/-- Exceptions observable from Window.__getitem__: IndexError from buffer
indexing, ValueError for an unknown column, and the exceptions a derived
function may raise (ZeroDivisionError kept separate because __iter__
routes it differently). -/
inductive WErr where
  | indexError
  | valueError
  | zeroDiv
  | other
deriving DecidableEq

/-- The Window object: capacity, current offset, buffered rows and the
registered derived (additional) columns.  F is the type of derived-column
function identifiers, interpreted by an evaluation oracle. -/
structure Window (F : Type) where
  size : Int
  offset : Int
  data : List Row
  addCols : List (String × F)
deriving DecidableEq

/-- Window.__init__: stores the fields; performs no validation. -/
def windowInit (F : Type) (size offset : Int) (addCols : List (String × F)) : Window F :=
  ⟨size, offset, [], addCols⟩

/-- Python list subscript semantics for self._data[i]: indices in
[0, len) address from the front, indices in [-len, 0) address from the
back, everything else raises IndexError (none).  Returns the normalized
nonnegative position. -/
def pyIdx (len : Nat) (i : Int) : Option Nat :=
  if 0 ≤ i ∧ i < (len : Int) then some i.toNat
  else if -(len : Int) ≤ i ∧ i < 0 then some (i + len).toNat
  else none

/-- Window.push on the underlying list: append the row, and if the length
now exceeds the capacity, Window.pop removes the front element. -/
def pushData (size : Int) (data : List Row) (row : Row) : List Row :=
  let d := data ++ [row]
  if size < (d.length : Int) then d.drop 1 else d

/-- Window.push lifted to the Window object. -/
def Window.push {F : Type} (w : Window F) (row : Row) : Window F :=
  { w with data := pushData w.size w.data row }

/-- The oracle interpreting derived-column function identifiers: the
function receives the window object (with the temporarily shifted offset)
and returns the possibly mutated window together with the produced value
or the raised exception. -/
abbrev EvalOracle (F : Type) := F → Window F → Window F × Except WErr PyVal

/-- Window.__getitem__ on a tuple (relative offset, column):

* compute the absolute index offset + rel and fetch the row
  (IndexError propagates if it is out of range);
* a base key of that row is returned directly;
* otherwise a registered derived column shifts self._offset by rel,
  invokes the function, shifts back, memoizes the value into the target
  row dict and returns it — note that on an exception from the function
  the shift-back and the memo write are skipped, exactly as in the
  source, where no try/finally protects the shift;
* otherwise ValueError (unknown column). -/
def getCell {F : Type} (evalF : EvalOracle F) (w : Window F) (rel : Int) (col : String) :
    Window F × Except WErr PyVal :=
  match pyIdx w.data.length (w.offset + rel) with
  | none => (w, .error .indexError)
  | some j =>
    match odGet (w.data.getD j []) col with
    | some v => (w, .ok v)
    | none =>
      match odGet w.addCols col with
      | some f =>
        match evalF f { w with offset := w.offset + rel } with
        | (w2, .error e) => (w2, .error e)
        | (w2, .ok v) =>
          match pyIdx w2.data.length (w.offset + rel) with
          | none => ({ w2 with offset := w2.offset - rel }, .error .indexError)
          | some j2 =>
            (⟨w2.size, w2.offset - rel,
              w2.data.set j2 (odSet (w2.data.getD j2 []) col v), w2.addCols⟩, .ok v)
      | none => (w, .error .valueError)

/-- Window.columns at an already-normalized buffer position: the keys of
the buffered row followed by the derived-column names. -/
def columnsAt {F : Type} (w : Window F) (j : Nat) : List String :=
  (w.data.getD j []).map (·.1) ++ w.addCols.map (·.1)

/-- Helper for Window.__getitem__ on a plain offset: resolve each listed
column through getCell, building the result dict in loop order; the first
exception propagates. -/
def getRowAux {F : Type} (evalF : EvalOracle F) (rel : Int) :
    List String → Row → Window F → Window F × Except WErr Row
  | [], acc, w => (w, .ok acc)
  | c :: cs, acc, w =>
    match getCell evalF w rel c with
    | (w', .error e) => (w', .error e)
    | (w', .ok v) => getRowAux evalF rel cs (odSet acc c v) w'

/-- Window.__getitem__ on a plain relative offset: build the fully
resolved row for that position (this is the window[0] yielded by
TimeSliceData.__iter__). -/
def getRow {F : Type} (evalF : EvalOracle F) (w : Window F) (rel : Int) :
    Window F × Except WErr Row :=
  match pyIdx w.data.length (w.offset + rel) with
  | none => (w, .error .indexError)
  | some j => getRowAux evalF rel (columnsAt w j) [] w

/-! ## The TimeSliceData component -/

/-- The constructor checks of TimeSliceData.__init__ that can raise
ValueError: the window-offset bound and the header requirement. -/
def timeSliceCheckConfig (windowSize windowOffset : Int) (hasHeader : Bool)
    (header : Option (List String)) : Except String Unit :=
  if windowOffset ≥ windowSize then
    .error "window offset must be smaller than window size"
  else if hasHeader = false ∧ header = none then
    .error "header is not specified."
  else
    .ok ()

/-- TimeSliceData.add_column: a plain OrderedDict assignment, with no
duplicate check of any kind. -/
def addColumn {F : Type} (cols : List (String × F)) (name : String) (f : F) :
    List (String × F) :=
  odSet cols name f

/-- The dict comprehension building before_data / after_data inside
__iter__: one entry per known column, defaulting to 0. -/
def mkPad (cols : List String) (d : List (String × PyVal)) : Row :=
  cols.map (fun c => (c, (odGet d c).getD (.num 0)))

/-- The configuration a single iteration pass runs with.  window_size and
window_offset are carried as naturals: every settled claim about iteration
assumes the constructor-validated range 0 <= offset < size (negative
parameters are settled against timeSliceCheckConfig over Int). -/
structure TSConfig where
  wsize : Nat
  woffset : Nat
  ncols : Nat
  filters : List (Row → Bool)
  padBefore : Row
  padAfter : Row

/-- Result of the filter loop inside _read_next: the for-else returns the
row, a matching filter breaks, and a TypeError/ValueError from the cast is
caught by the enclosing try.  Each constructor carries the type cache as
left by the casts performed so far. -/
inductive FilterRes where
  | ret (t : Types)
  | matched (t : Types)
  | castFail (t : Types)

/-- The filter loop of _read_next: each predicate is applied to a fresh
cast of the raw row (the cast is re-run per filter, as in the source). -/
def filterLoop (t : Types) (r : RawRow) : List (Row → Bool) → FilterRes
  | [] => .ret t
  | f :: fs =>
    match castRow t r with
    | (t', none) => .castFail t'
    | (t', some c) => if f c then .matched t' else filterLoop t' r fs

/-- The row-shape validation of _read_next. -/
def rowOkB (ncols : Nat) (r : RawRow) : Bool :=
  !(decide (r.length < ncols)) && r.all (fun kv => kv.1.isSome)

/-- TimeSliceData._read_next: skip rows until one passes validation, is
not filtered away and does not fail a filter-time cast; return it with the
updated type cache, row counter and remaining input, or none for
StopIteration.  With no filters registered the loop body never casts. -/
def readNext (cfg : TSConfig) (t : Types) (n : Nat) :
    List RawRow → Option (RawRow × Types × Nat × List RawRow)
  | [] => none
  | r :: rest =>
    if rowOkB cfg.ncols r then
      match filterLoop t r cfg.filters with
      | .ret t' => some (r, t', n + 1, rest)
      | .matched t' => readNext cfg t' (n + 1) rest
      | .castFail t' => readNext cfg t' (n + 1) rest
    else
      readNext cfg t (n + 1) rest

/-- Fatal outcomes of one pull on the iterator: a ZeroDivisionError
re-raised while yielding, or an uncaught TypeError/ValueError from the
unprotected window.push(self._cast(row)). -/
inductive Fatal where
  | zeroDiv
  | castErr
deriving DecidableEq

/-- Errors a derived-column evaluation can surface while window[0] is
being built for a yield. -/
inductive EvalErr where
  | zeroDiv
  | other
deriving DecidableEq

/-- The outcome of yield window[0] at the current buffer: the Window
component resolves the row at the window offset (reading base columns and
evaluating derived ones); iteration theorems quantify over this
resolution function. -/
abbrev Emit := List Row → Except EvalErr Row

/-- Push the same row n times (the pre-roll loop and the after-padding
loops of __iter__). -/
def pushN (size : Int) (buf : List Row) (r : Row) : Nat → List Row
  | 0 => buf
  | n + 1 => pushN size (pushData size buf r) r n

/-- The fill phase of __iter__: up to window_size - window_offset reads,
each casted (unprotected: a cast failure is fatal) and pushed; when the
source is exhausted the remaining budget is filled with after-padding and
the phase ends.  Returns buffer, type cache, row counter, remaining
input, the rows counter of pushed real rows, and a fatal outcome. -/
def fillPhase (cfg : TSConfig) :
    Nat → List Row → Types → Nat → List RawRow →
    List Row × Types × Nat × List RawRow × Nat × Option Fatal
  | 0, buf, t, n, inp => (buf, t, n, inp, 0, none)
  | m + 1, buf, t, n, inp =>
    match readNext cfg t n inp with
    | none => (pushN (cfg.wsize : Int) buf cfg.padAfter (m + 1), t, n, inp, 0, none)
    | some (r, t1, n1, rest) =>
      match castRow t1 r with
      | (t2, none) => (buf, t2, n1, rest, 0, some .castErr)
      | (t2, some c) =>
        match fillPhase cfg m (pushData (cfg.wsize : Int) buf c) t2 n1 rest with
        | (b, t3, n3, i3, k, f) => (b, t3, n3, i3, k + 1, f)

/-- The main phase of __iter__: read the next real row via _read_next; if
one arrives, yield window[0] — a ZeroDivisionError while resolving it is
logged and re-raised, any other exception is logged and swallowed — then
cast the read row (unprotected) and push it.  StopIteration from the read
ends the phase.  The definition inlines the skipping loop of _read_next
into the main loop so that recursion is structural on the raw input; the
lemma mainPhase_step recovers the factoring through readNext.  Returns
outputs, buffer, type cache, row counter, remaining input and a fatal
outcome.  (When the source exhausts while skipping invalid rows, the
type-cache and counter updates made during the skipping are not observable
downstream — exhaustion ends all reading and casting — and the model
returns the pre-skip cache and counter.) -/
def mainPhase (cfg : TSConfig) (emit : Emit) :
    List Row → Types → Nat → List RawRow →
    List Row × List Row × Types × Nat × List RawRow × Option Fatal
  | buf, t, n, [] => ([], buf, t, n, [], none)
  | buf, t, n, r :: rest =>
    if rowOkB cfg.ncols r then
      match filterLoop t r cfg.filters with
      | .ret t1 =>
        match emit buf with
        | .error .zeroDiv => ([], buf, t1, n + 1, rest, some .zeroDiv)
        | .error .other =>
          match castRow t1 r with
          | (t2, none) => ([], buf, t2, n + 1, rest, some .castErr)
          | (t2, some c) =>
            mainPhase cfg emit (pushData (cfg.wsize : Int) buf c) t2 (n + 1) rest
        | .ok v =>
          match castRow t1 r with
          | (t2, none) => ([v], buf, t2, n + 1, rest, some .castErr)
          | (t2, some c) =>
            match mainPhase cfg emit (pushData (cfg.wsize : Int) buf c) t2 (n + 1) rest with
            | (outs, b, t3, n3, i3, f) => (v :: outs, b, t3, n3, i3, f)
      | .matched t1 => mainPhase cfg emit buf t1 (n + 1) rest
      | .castFail t1 => mainPhase cfg emit buf t1 (n + 1) rest
    else
      mainPhase cfg emit buf t (n + 1) rest

/-- The drain phase of __iter__: for each of the rows real rows pushed in
the fill phase, yield window[0] — every exception, ZeroDivisionError
included, is logged and swallowed — and push one after-padding row. -/
def drainPhase (cfg : TSConfig) (emit : Emit) : Nat → List Row → List Row
  | 0, _ => []
  | k + 1, buf =>
    (match emit buf with
     | .ok v => [v]
     | .error _ => []) ++
      drainPhase cfg emit k (pushData (cfg.wsize : Int) buf cfg.padAfter)

/-- TimeSliceData.__iter__ starting from a given row counter: pre-roll
window_offset before-padding rows, run the fill, main and drain phases.
Returns the yielded rows and the fatal outcome, if any, that aborted the
pass. -/
def timesliceRunFrom (cfg : TSConfig) (emit : Emit) (n0 : Nat) (inp : List RawRow) :
    List Row × Option Fatal :=
  let buf0 := pushN (cfg.wsize : Int) [] cfg.padBefore cfg.woffset
  match fillPhase cfg (cfg.wsize - cfg.woffset) buf0 [] n0 inp with
  | (_, _, _, _, _, some e) => ([], some e)
  | (b1, t1, n1, i1, rows, none) =>
    match mainPhase cfg emit b1 t1 n1 i1 with
    | (outs, _, _, _, _, some e) => (outs, some e)
    | (outs, b2, _, _, _, none) => (outs ++ drainPhase cfg emit rows b2, none)

/-- A fresh iteration pass: empty type cache, row counter 0. -/
def timesliceRun (cfg : TSConfig) (emit : Emit) (inp : List RawRow) :
    List Row × Option Fatal :=
  timesliceRunFrom cfg emit 0 inp

/-- The sequence of casted rows of an input stream under the evolving type
cache (rows whose cast fails contribute nothing). -/
def castSeq (t : Types) : List RawRow → List Row
  | [] => []
  | r :: rs =>
    match castRow t r with
    | (t', some c) => c :: castSeq t' rs
    | (t', none) => castSeq t' rs

/-- The type cache after casting a whole stream in sequence. -/
def castTypes (t : Types) : List RawRow → Types
  | [] => t
  | r :: rs => castTypes (castRow t r).1 rs

/-- The hypothesis of the no-failure iteration claims: every row of the
stream passes validation, casts successfully under the evolving type
cache, and matches no filter. -/
def allPassB (cfg : TSConfig) (t : Types) : List RawRow → Bool
  | [] => true
  | r :: rs =>
    rowOkB cfg.ncols r &&
      match castRow t r with
      | (t', some c) => cfg.filters.all (fun f => !(f c)) && allPassB cfg t' rs
      | (_, none) => false

/-! ## Concrete fixtures used by witnesses and counterexamples -/

/-- A two-row window with one derived column, mirroring the doctest
windows of the source. -/
def exWinD : Window Unit := ⟨2, 0, [[("a", .num 1)], [("a", .num 2)]], [("d", ())]⟩

/-- A two-row window with only base columns. -/
def exWinBase : Window Unit := ⟨2, 0, [[("a", .num 1)], [("a", .num 2)]], []⟩

/-- A derived function that raises immediately (a generic evaluation
error) without touching the window. -/
def exEvFail : EvalOracle Unit := fun _ w => (w, .error .other)

/-- A derived function that returns the constant 42 without touching the
window. -/
def exEvConst : EvalOracle Unit := fun _ w => (w, .ok (.num 42))

/-- A derived function that raises ZeroDivisionError. -/
def exEmitZeroDiv : Emit := fun _ => .error .zeroDiv

/-- The resolution of window[0] when derived evaluation cannot fail:
the row at the window offset. -/
def exEmitAt (o : Nat) : Emit := fun buf => .ok (buf.getD o [])

/-- Column-1-only iterator configuration with no filters
(window_size 2, window_offset 0). -/
def exCfgNoFilter : TSConfig := ⟨2, 0, 1, [], mkPad ["col1"] [], mkPad ["col1"] []⟩

/-- The same configuration with one (never matching) filter registered. -/
def exCfgOneFilter : TSConfig := ⟨2, 0, 1, [fun _ => false], mkPad ["col1"] [], mkPad ["col1"] []⟩

/-- A two-row stream whose second row cannot be cast to the float type
guessed from the first row. -/
def exInpBadCast : List RawRow := [[(some "col1", "1")], [(some "col1", "abc")]]

/-- A single-row valid stream. -/
def exInpOne : List RawRow := [[(some "col1", "1")]]

/-- The doctest stream: four valid two-column rows. -/
def exInpFour : List RawRow :=
  [[(some "col1", "10"), (some "col2", "12")],
   [(some "col1", "11"), (some "col2", "15")],
   [(some "col1", "12"), (some "col2", "16")],
   [(some "col1", "13"), (some "col2", "20")]]

/-- The doctest configuration: window (3, 1), two columns, no filters. -/
def exCfgFour : TSConfig := ⟨3, 1, 2, [], mkPad ["col1", "col2"] [], mkPad ["col1", "col2"] []⟩

/-! ## Helper lemmas about dictionaries and indexing -/

theorem odGet_odSet_self {κ β : Type} [DecidableEq κ] (l : List (κ × β)) (k : κ) (v : β) :
    odGet (odSet l k v) k = some v := by
  induction l with
  | nil => simp [odGet, odSet]
  | cons p rest ih =>
    obtain ⟨k', v'⟩ := p
    by_cases h : k' = k
    · subst h; simp [odGet, odSet]
    · simp only [odSet, if_neg h, odGet, List.find?]
      rw [decide_eq_false h]
      exact ih

theorem odGet_odSet_ne {κ β : Type} [DecidableEq κ] (l : List (κ × β)) (k k' : κ) (v : β)
    (h : k' ≠ k) : odGet (odSet l k' v) k = odGet l k := by
  induction l with
  | nil => simp [odGet, odSet, List.find?, decide_eq_false h]
  | cons p rest ih =>
    obtain ⟨k1, v1⟩ := p
    by_cases h1 : k1 = k'
    · subst h1
      simp only [odSet, if_pos rfl, odGet, List.find?, decide_eq_false h]
    · simp only [odSet, if_neg h1, odGet, List.find?]
      cases hd : decide (k1 = k) with
      | true => rfl
      | false => exact ih

theorem pyIdx_eq_none_iff (len : Nat) (i : Int) :
    pyIdx len i = none ↔ ¬(-(len : Int) ≤ i ∧ i < (len : Int)) := by
  unfold pyIdx
  split
  · rename_i h1
    simp only [reduceCtorEq, false_iff]
    omega
  · rename_i h1
    split
    · rename_i h2
      simp only [reduceCtorEq, false_iff]
      omega
    · rename_i h2
      simp only [true_iff]
      omega

theorem pyIdx_lt {len : Nat} {i : Int} {j : Nat} (h : pyIdx len i = some j) : j < len := by
  unfold pyIdx at h
  split at h
  · rename_i h1
    simp only [Option.some.injEq] at h
    omega
  · split at h
    · rename_i h1 h2
      simp only [Option.some.injEq] at h
      omega
    · exact absurd h (by simp)

/-! ## Claim C2: Window.push FIFO behaviour -/

/-- Closed form of pushing a whole sequence into an initially empty
window buffer: the buffer ends up holding the last capacity-many rows. -/
theorem foldl_pushData_closed (size : Int) (hs : 0 ≤ size) (rs : List Row) :
    List.foldl (pushData size) [] rs = rs.drop (rs.length - size.toNat) := by
  induction rs using List.reverseRecOn with
  | nil => simp
  | append_singleton rs r ih =>
    rw [List.foldl_append, List.foldl_cons, List.foldl_nil, ih]
    set l := rs.length with hl
    set s := size.toNat with hs'
    have hsize : (s : Int) = size := Int.toNat_of_nonneg hs
    unfold pushData
    by_cases hc : l < s
    · have hdrop : l - s = 0 := by omega
      rw [hdrop, List.drop_zero]
      have hcond : ¬ size < ((rs ++ [r]).length : Int) := by
        simp only [List.length_append, List.length_cons, List.length_nil]
        omega
      rw [if_neg hcond]
      have : (rs ++ [r]).length - s = 0 := by
        simp only [List.length_append, List.length_cons, List.length_nil]
        omega
      rw [this, List.drop_zero]
    · push_neg at hc
      have hlen : (rs.drop (l - s)).length = s := by
        rw [List.length_drop]
        omega
      have hcond : size < (((rs.drop (l - s)) ++ [r]).length : Int) := by
        simp only [List.length_append, List.length_cons, List.length_nil, hlen]
        omega
      rw [if_pos hcond]
      have hsplit : rs.drop (l - s) ++ [r] = (rs ++ [r]).drop (l - s) := by
        rw [List.drop_append_of_le_length (by omega)]
      rw [hsplit, List.drop_drop]
      congr 1
      simp only [List.length_append, List.length_cons, List.length_nil]
      omega

/-- Claim C2: for every Window of capacity size and every pushed
sequence, the buffer length never exceeds the capacity, and after pushing
more rows than the capacity the buffer holds exactly the last
capacity-many pushed rows in their original relative order (FIFO
eviction). -/
theorem window_push_fifo (size : Int) (hs : 0 ≤ size) (rs : List Row) :
    (List.foldl (pushData size) [] rs).length ≤ size.toNat ∧
      (size.toNat < rs.length →
        List.foldl (pushData size) [] rs = rs.drop (rs.length - size.toNat)) := by
  refine ⟨?_, fun _ => foldl_pushData_closed size hs rs⟩
  rw [foldl_pushData_closed size hs rs, List.length_drop]
  omega

/-- Witness for C2: pushing three rows into a capacity-2 window leaves
exactly the last two rows, in order. -/
theorem window_push_fifo_witness :
    List.foldl (pushData 2) []
        [[("a", PyVal.num 1)], [("a", PyVal.num 2)], [("a", PyVal.num 3)]] =
      [[("a", PyVal.num 2)], [("a", PyVal.num 3)]] := by
  have h := (window_push_fifo 2 (by decide)
    [[("a", PyVal.num 1)], [("a", PyVal.num 2)], [("a", PyVal.num 3)]]).2 (by decide)
  simpa using h

/-! ## Claim C8: constructor validation -/

/-- Amended C8: the constructor check accepts exactly the offsets strictly
below the window size — in particular negative offsets are accepted, since
only the upper bound is tested. -/
theorem checkConfig_ok_iff (size offset : Int) :
    timeSliceCheckConfig size offset true none = .ok () ↔ offset < size := by
  unfold timeSliceCheckConfig
  split
  · rename_i h
    simp only [reduceCtorEq, false_iff]
    omega
  · rename_i h
    simp only [Bool.true_eq_false, false_and, if_false, true_iff]
    omega

/-- Witness for the amended C8: offset 2 with size 5 passes the check. -/
theorem checkConfig_ok_iff_witness :
    timeSliceCheckConfig 5 2 true none = .ok () :=
  (checkConfig_ok_iff 5 2).mpr (by decide)

/-- Counterexample to C8 as stated: a negative window offset is accepted,
both by the TimeSliceData constructor check and by Window construction,
which validates nothing. -/
theorem checkConfig_negative_offset_accepted :
    timeSliceCheckConfig 3 (-1) true none = .ok () ∧
      windowInit Unit 3 (-1) [] = ⟨3, -1, [], []⟩ ∧ (-1 : Int) < 0 := by
  refine ⟨rfl, rfl, by decide⟩

/-! ## Claim C9: add_column performs no duplicate check -/

/-- Counterexample to C9 as stated: registering the derived name col1 —
a base column name of the running example, whose base columns are col1 and
col2 — succeeds and stores the function; add_column has no failure path at
all. -/
theorem addColumn_collision_accepted :
    addColumn ([] : List (String × Unit)) "col1" () = [("col1", ())] ∧
      "col1" ∈ ["col1", "col2"] := by
  exact ⟨rfl, by decide⟩

/-- Amended C9: add_column never fails; it registers the name
unconditionally (base-name collisions included, the base value then
shadowing it on reads) and re-registering a name overwrites the previous
function. -/
theorem addColumn_overwrites (F : Type) (cols : List (String × F)) (name : String)
    (f g : F) :
    odGet (addColumn cols name f) name = some f ∧
      odGet (addColumn (addColumn cols name f) name g) name = some g :=
  ⟨odGet_odSet_self cols name f, odGet_odSet_self _ name g⟩

/-! ## Claim C3: derived-column memoization -/

/-- Claim C3: a first read of a derived column through the derived path
stores the computed value into the target row dict, and a second read of
the same buffered row returns that identical stored value with no further
state change and without consulting the derived-function oracle at all
(the base-key branch answers it).  The derived call is assumed to return
with the offset it was given and an unchanged buffer length, as the
windows own nested reads do on success. -/
theorem derived_read_memoized {F : Type} (evalF : EvalOracle F) (w : Window F) (rel : Int)
    (col : String) (f : F) (j : Nat) (w2 : Window F) (v : PyVal)
    (hidx : pyIdx w.data.length (w.offset + rel) = some j)
    (hbase : odGet (w.data.getD j []) col = none)
    (hderiv : odGet w.addCols col = some f)
    (heval : evalF f { w with offset := w.offset + rel } = (w2, .ok v))
    (hoff : w2.offset = w.offset + rel)
    (hlen : w2.data.length = w.data.length) :
    ∃ w1 : Window F,
      getCell evalF w rel col = (w1, .ok v) ∧
      w1.offset = w.offset ∧
      w1.data.length = w.data.length ∧
      odGet (w1.data.getD j []) col = some v ∧
      ∀ evalF' : EvalOracle F, getCell evalF' w1 rel col = (w1, .ok v) := by
  have hj : j < w.data.length := pyIdx_lt hidx
  refine ⟨⟨w2.size, w2.offset - rel, w2.data.set j (odSet (w2.data.getD j []) col v),
      w2.addCols⟩, ?_, ?_, ?_, ?_, ?_⟩
  · unfold getCell
    simp only [hidx, hbase, hderiv, heval, hlen]
  · simp only [hoff]
    ring
  · simp only [List.length_set, hlen]
  · have hjl : j < (w2.data.set j (odSet (w2.data.getD j []) col v)).length := by
      simp only [List.length_set, hlen]; exact hj
    rw [List.getD_eq_getElem _ _ hjl, List.getElem_set_self _]
    exact odGet_odSet_self _ col v
  · intro evalF'
    unfold getCell
    have hoff1 : w2.offset - rel + rel = w.offset + rel := by rw [hoff]; ring
    simp only [hoff1, List.length_set, hlen, hidx]
    have hjl : j < (w2.data.set j (odSet (w2.data.getD j []) col v)).length := by
      simp only [List.length_set, hlen]; exact hj
    rw [List.getD_eq_getElem _ _ hjl, List.getElem_set_self _]
    rw [odGet_odSet_self _ col v]

/-- Witness for C3: reading the derived column d of the example window at
relative offset 1 memoizes 42 onto the second buffered row; a second
read — even with an oracle that raises — returns the stored 42 without
evaluation. -/
theorem derived_read_memoized_witness :
    ∃ w1 : Window Unit,
      getCell exEvConst exWinD 1 "d" = (w1, .ok (.num 42)) ∧
      w1.offset = exWinD.offset ∧
      w1.data.length = exWinD.data.length ∧
      odGet (w1.data.getD 1 []) "d" = some (.num 42) ∧
      ∀ evalF' : EvalOracle Unit, getCell evalF' w1 1 "d" = (w1, .ok (.num 42)) :=
  derived_read_memoized exEvConst exWinD 1 "d" () 1 { exWinD with offset := 1 } (.num 42)
    (by decide) (by decide) (by decide) rfl rfl rfl

/-! ## Claim C4: offset restoration around derived evaluation -/

/-- Counterexample to C4 as stated: when the derived function raises, the
shift-back of the current offset is skipped (there is no try/finally), so
after the failed get the window offset is 1, not its value 0 from before
the call. -/
theorem offset_unrestored_on_failure :
    (getCell exEvFail exWinD 1 "d").1.offset = 1 ∧ exWinD.offset = 0 :=
  ⟨rfl, rfl⟩

/-- Amended C4: when the get call returns normally — the derived function
returning with the offset it was invoked at — the window offset is
restored to its value from before the call; on an exception from the
derived function the offset stays as the failed evaluation left it. -/
theorem offset_restored_on_success {F : Type} (evalF : EvalOracle F)
    (hpres : ∀ (f : F) (w0 w2 : Window F) (v : PyVal),
      evalF f w0 = (w2, .ok v) → w2.offset = w0.offset)
    (w : Window F) (rel : Int) (col : String) (w' : Window F) (v : PyVal)
    (h : getCell evalF w rel col = (w', .ok v)) : w'.offset = w.offset := by
  unfold getCell at h
  cases hidx : pyIdx w.data.length (w.offset + rel) with
  | none => simp only [hidx] at h; simp at h
  | some j =>
    simp only [hidx] at h
    cases hb : odGet (w.data.getD j []) col with
    | some u =>
      simp only [hb] at h
      have h1 : w = w' := congrArg Prod.fst h
      rw [← h1]
    | none =>
      simp only [hb] at h
      cases hd : odGet w.addCols col with
      | none => simp only [hd] at h; simp at h
      | some f =>
        simp only [hd] at h
        cases hev : evalF f { w with offset := w.offset + rel } with
        | mk w2 res =>
          simp only [hev] at h
          cases res with
          | error e => simp at h
          | ok u =>
            simp only at h
            cases hidx2 : pyIdx w2.data.length (w.offset + rel) with
            | none => simp only [hidx2] at h; simp at h
            | some j2 =>
              simp only [hidx2] at h
              have h1 := congrArg (fun p => Prod.fst p) h
              simp only at h1
              have := hpres f _ _ u hev
              rw [← h1]
              simp only [this]
              ring

/-- Witness for the amended C4: a successful derived read of the example
window leaves the offset at its original value 0. -/
theorem offset_restored_on_success_witness :
    ({ exWinD with
        data := [[("a", PyVal.num 1)], [("a", PyVal.num 2), ("d", PyVal.num 42)]] } :
      Window Unit).offset = exWinD.offset :=
  offset_restored_on_success exEvConst
    (fun f w0 w2 v h => by
      simp only [exEvConst, Prod.mk.injEq] at h
      rw [← h.1])
    exWinD 1 "d" _ (.num 42) rfl

/-! ## Claim C5: IndexError range of Window.get -/

/-- Counterexample to C5 as stated: the absolute index 0 + (-1) = -1 lies
outside [0, len(buffer)), yet the call does not raise IndexError — Python
list indexing wraps negative indices, so it returns the value of the last
buffered row. -/
theorem negative_index_returns_row :
    getCell exEvFail exWinBase (-1) "a" = (exWinBase, .ok (.num 2)) ∧
      exWinBase.offset + (-1) < 0 :=
  ⟨rfl, by decide⟩

/-- Amended C5: for reads resolved from base columns, the call fails with
IndexError exactly when the absolute index offset + relative_offset falls
outside [-len(buffer), len(buffer)); absolute indices in [-len, 0) address
rows from the back of the buffer rather than failing. -/
theorem getCell_indexError_iff {F : Type} (evalF : EvalOracle F) (w : Window F)
    (rel : Int) (col : String)
    (hbase : ∀ row ∈ w.data, (odGet row col).isSome = true) :
    (getCell evalF w rel col).2 = .error .indexError ↔
      ¬(-(w.data.length : Int) ≤ w.offset + rel ∧
          w.offset + rel < (w.data.length : Int)) := by
  unfold getCell
  cases hidx : pyIdx w.data.length (w.offset + rel) with
  | none =>
    simp only [hidx]
    exact iff_of_true (by trivial) ((pyIdx_eq_none_iff _ _).mp hidx)
  | some j =>
    simp only [hidx]
    have hj : j < w.data.length := pyIdx_lt hidx
    have hmem : w.data.getD j [] ∈ w.data := by
      rw [List.getD_eq_getElem _ _ hj]
      exact List.getElem_mem hj
    have hsome := hbase _ hmem
    cases hb : odGet (w.data.getD j []) col with
    | none => rw [hb] at hsome; simp at hsome
    | some u =>
      simp only [hb]
      have hnn : ¬ pyIdx w.data.length (w.offset + rel) = none := by simp [hidx]
      have hAB : -(w.data.length : Int) ≤ w.offset + rel ∧
          w.offset + rel < (w.data.length : Int) := by
        by_contra hc
        exact hnn ((pyIdx_eq_none_iff _ _).mpr hc)
      exact iff_of_false (by simp) (not_not_intro hAB)

/-- Witness for the amended C5: on the all-base example window, relative
offset 5 (absolute 5, out of range even after wrapping) raises IndexError.
-/
theorem getCell_indexError_iff_witness :
    (getCell exEvFail exWinBase 5 "a").2 = .error .indexError :=
  (getCell_indexError_iff exEvFail exWinBase 5 "a" (by decide)).mpr (by decide)

/-! ## Lemmas about the type-guessing cast -/

/-- The cast of a value with the type guessed from that same value never
fails: a value that parses as float casts as float, anything else keeps
its string class. -/
theorem castVal_guessType (v : String) : (castVal (guessType v) v).isSome = true := by
  unfold guessType castVal
  cases h : pyParseFloat v with
  | none => simp [h]
  | some n => simp [h]

/-- A column type already cached survives casting any further row, with
its value unchanged: _guess_and_cast only ever adds missing keys. -/
theorem castRow_mono : ∀ (r : RawRow) (t t2 : Types) (o : Option Row)
    (k : Option String) (ty : PyType),
    odGet t k = some ty → castRow t r = (t2, o) → odGet t2 k = some ty := by
  intro r
  induction r with
  | nil =>
    intro t t2 o k ty hk h
    simp only [castRow, Prod.mk.injEq] at h
    rw [← h.1]; exact hk
  | cons p rest ih =>
    intro t t2 o k ty hk h
    obtain ⟨k1, v1⟩ := p
    simp only [castRow] at h
    cases hk1 : odGet t k1 with
    | some ty1 =>
      simp only [hk1] at h
      cases hcv : castVal ty1 v1 with
      | none =>
        simp only [hcv, Prod.mk.injEq] at h
        rw [← h.1]; exact hk
      | some cv =>
        simp only [hcv] at h
        cases hrec : castRow t rest with
        | mk t2' o' =>
          simp only [hrec] at h
          have ht2 : t2 = t2' := by
            cases o' <;> simp only [Prod.mk.injEq] at h <;> exact h.1.symm
          rw [ht2]
          exact ih t t2' o' k ty hk hrec
    | none =>
      simp only [hk1] at h
      have hne : k1 ≠ k := fun he => by rw [he, hk] at hk1; exact Option.noConfusion hk1
      have hk' : odGet (odSet t k1 (guessType v1)) k = some ty := by
        rw [odGet_odSet_ne _ _ _ _ hne]; exact hk
      cases hcv : castVal (guessType v1) v1 with
      | none =>
        simp only [hcv, Prod.mk.injEq] at h
        rw [← h.1]; exact hk'
      | some cv =>
        simp only [hcv] at h
        cases hrec : castRow (odSet t k1 (guessType v1)) rest with
        | mk t2' o' =>
          simp only [hrec] at h
          have ht2 : t2 = t2' := by
            cases o' <;> simp only [Prod.mk.injEq] at h <;> exact h.1.symm
          rw [ht2]
          exact ih _ t2' o' k ty hk' hrec

/-- Re-casting a successfully casted row under the type cache it produced
returns the same casted row and the same cache: the cast is stable, which
is why the repeated casts of _read_next (one per filter) and the final
cast of __iter__ agree. -/
theorem castRow_stable : ∀ (r : RawRow) (t t' : Types) (c : Row),
    castRow t r = (t', some c) → castRow t' r = (t', some c) := by
  intro r
  induction r with
  | nil =>
    intro t t' c h
    simp only [castRow, Prod.mk.injEq, Option.some.injEq] at h
    simp [castRow, ← h.1, h.2]
  | cons p rest ih =>
    intro t t' c h
    obtain ⟨k1, v1⟩ := p
    simp only [castRow] at h
    cases hk1 : odGet t k1 with
    | some ty1 =>
      simp only [hk1] at h
      cases hcv : castVal ty1 v1 with
      | none => simp only [hcv, Prod.mk.injEq, reduceCtorEq, and_false] at h
      | some cv =>
        simp only [hcv] at h
        cases hrec : castRow t rest with
        | mk t2 o =>
          simp only [hrec] at h
          cases o with
          | none => simp only [Prod.mk.injEq, reduceCtorEq, and_false] at h
          | some r' =>
            simp only [Prod.mk.injEq, Option.some.injEq] at h
            obtain ⟨ht, hc⟩ := h
            have hrec2 : castRow t rest = (t', some r') := by rw [hrec, ht]
            have hk' : odGet t' k1 = some ty1 :=
              castRow_mono rest t t' _ k1 ty1 hk1 hrec2
            have hrec' := ih t t' r' hrec2
            simp only [castRow, hk', hcv, hrec']
            rw [← hc]
    | none =>
      simp only [hk1] at h
      cases hcv : castVal (guessType v1) v1 with
      | none => simp only [hcv, Prod.mk.injEq, reduceCtorEq, and_false] at h
      | some cv =>
        simp only [hcv] at h
        cases hrec : castRow (odSet t k1 (guessType v1)) rest with
        | mk t2 o =>
          simp only [hrec] at h
          cases o with
          | none => simp only [Prod.mk.injEq, reduceCtorEq, and_false] at h
          | some r' =>
            simp only [Prod.mk.injEq, Option.some.injEq] at h
            obtain ⟨ht, hc⟩ := h
            have hrec2 : castRow (odSet t k1 (guessType v1)) rest = (t', some r') := by
              rw [hrec, ht]
            have hself : odGet (odSet t k1 (guessType v1)) k1 = some (guessType v1) :=
              odGet_odSet_self t k1 (guessType v1)
            have hk' : odGet t' k1 = some (guessType v1) :=
              castRow_mono rest _ t' _ k1 (guessType v1) hself hrec2
            have hrec' := ih _ t' r' hrec2
            simp only [castRow, hk', hcv, hrec']
            rw [← hc]

/-! ## Lemmas about the filter loop and _read_next -/

/-- The filter loop at a cast-stable type cache, with no filter matching,
falls through to the for-else and returns the row. -/
theorem filterLoop_stable (t : Types) (r : RawRow) (c : Row)
    (hc : castRow t r = (t, some c)) :
    ∀ fs : List (Row → Bool), (∀ f ∈ fs, f c = false) → filterLoop t r fs = .ret t := by
  intro fs
  induction fs with
  | nil => intro _; rfl
  | cons f fs' ih =>
    intro hf
    simp only [filterLoop, hc]
    rw [hf f (List.mem_cons_self f fs')]
    simp only [Bool.false_eq_true, if_false]
    exact ih (fun g hg => hf g (List.mem_cons_of_mem f hg))

/-- The filter loop on a row that casts successfully and matches no
filter returns the row; the resulting type cache is the input cache when
no filter is registered (the cast never runs) and the post-cast cache
otherwise. -/
theorem filterLoop_ret (t t' : Types) (r : RawRow) (c : Row)
    (hc : castRow t r = (t', some c)) :
    ∀ fs : List (Row → Bool), (∀ f ∈ fs, f c = false) →
      filterLoop t r fs = .ret (if fs.isEmpty then t else t') := by
  intro fs hf
  cases fs with
  | nil => rfl
  | cons f fs' =>
    simp only [List.isEmpty_cons, if_false]
    simp only [filterLoop, hc]
    rw [hf f (List.mem_cons_self f fs')]
    simp only [Bool.false_eq_true, if_false]
    exact filterLoop_stable t' r c (castRow_stable r t t' c hc) fs'
      (fun g hg => hf g (List.mem_cons_of_mem f hg))

/-- _read_next on a stream whose head is valid, casts successfully and
matches no filter returns that head immediately, consuming exactly one
raw row. -/
theorem readNext_good (cfg : TSConfig) (t t' : Types) (n : Nat) (r : RawRow)
    (rest : List RawRow) (c : Row)
    (hok : rowOkB cfg.ncols r = true)
    (hc : castRow t r = (t', some c))
    (hf : ∀ f ∈ cfg.filters, f c = false) :
    readNext cfg t n (r :: rest) =
      some (r, (if cfg.filters.isEmpty then t else t'), n + 1, rest) := by
  simp only [readNext, hok, if_true]
  rw [filterLoop_ret t t' r c hc cfg.filters hf]

/-! ## Claim C6: recovery from cast failures -/

/-- Counterexample to C6 as stated: with no filter predicates registered,
_read_next never casts, so the cast failure of the second row surfaces in
the unprotected window.push(self._cast(row)) of __iter__ and aborts the
whole iteration with zero rows yielded — instead of skipping the row and
continuing. -/
theorem castfail_aborts_without_filters :
    timesliceRun exCfgNoFilter (exEmitAt 0) exInpBadCast = ([], some .castErr) := by
  rfl

/-- Amended C6: when at least one filter predicate is registered, the
filter-time cast of _read_next raises inside the guarded loop, so a row
whose value cannot be coerced is skipped (never returned, hence never
pushed or yielded) and reading continues with the next row. -/
theorem castfail_skipped_with_filters (cfg : TSConfig) (t : Types) (n : Nat)
    (r : RawRow) (rest : List RawRow)
    (hfne : cfg.filters ≠ [])
    (hok : rowOkB cfg.ncols r = true)
    (hc : (castRow t r).2 = none) :
    readNext cfg t n (r :: rest) = readNext cfg (castRow t r).1 (n + 1) rest := by
  simp only [readNext, hok, if_true]
  cases hfs : cfg.filters with
  | nil => exact absurd hfs hfne
  | cons f fs' =>
    cases hcr : castRow t r with
    | mk t1 o =>
      rw [hcr] at hc
      simp only at hc
      subst hc
      simp only [filterLoop, hcr]

/-- Witness for the amended C6: under the one-filter configuration, the
uncastable row abc is skipped and the read returns the following valid
row. -/
theorem castfail_skipped_with_filters_witness :
    readNext exCfgOneFilter [(some "col1", PyType.float)] 0
        [[(some "col1", "abc")], [(some "col1", "2")]] =
      readNext exCfgOneFilter [(some "col1", PyType.float)] 1
        [[(some "col1", "2")]] :=
  castfail_skipped_with_filters exCfgOneFilter [(some "col1", PyType.float)] 0
    [(some "col1", "abc")] [[(some "col1", "2")]] (by simp [exCfgOneFilter]) (by decide)
    (by decide)

/-- The main loop factors through _read_next: when a read returns a row,
the loop yields, casts and pushes exactly as the source writes it.  This
recovers the source control flow from the inlined recursion of
mainPhase. -/
theorem mainPhase_step (cfg : TSConfig) (emit : Emit) (buf : List Row) :
    ∀ (inp : List RawRow) (t : Types) (n : Nat) (r : RawRow) (t1 : Types) (n1 : Nat)
      (rest : List RawRow),
      readNext cfg t n inp = some (r, t1, n1, rest) →
      mainPhase cfg emit buf t n inp =
        match emit buf with
        | .error .zeroDiv => ([], buf, t1, n1, rest, some .zeroDiv)
        | .error .other =>
          match castRow t1 r with
          | (t2, none) => ([], buf, t2, n1, rest, some .castErr)
          | (t2, some c) =>
            mainPhase cfg emit (pushData (cfg.wsize : Int) buf c) t2 n1 rest
        | .ok v =>
          match castRow t1 r with
          | (t2, none) => ([v], buf, t2, n1, rest, some .castErr)
          | (t2, some c) =>
            match mainPhase cfg emit (pushData (cfg.wsize : Int) buf c) t2 n1 rest with
            | (outs, b, t3, n3, i3, f) => (v :: outs, b, t3, n3, i3, f) := by
  intro inp
  induction inp with
  | nil => intro t n r t1 n1 rest h; simp [readNext] at h
  | cons x xs ih =>
    intro t n r t1 n1 rest h
    simp only [readNext] at h
    by_cases hok : rowOkB cfg.ncols x = true
    · rw [if_pos hok] at h
      cases hfl : filterLoop t x cfg.filters with
      | ret t' =>
        rw [hfl] at h
        simp only [Option.some.injEq, Prod.mk.injEq] at h
        obtain ⟨h1, h2, h3, h4⟩ := h
        subst h1; subst h2; subst h3; subst h4
        simp only [mainPhase, hok, if_true, hfl]
      | matched t' =>
        rw [hfl] at h
        have hstep : mainPhase cfg emit buf t n (x :: xs) =
            mainPhase cfg emit buf t' (n + 1) xs := by
          simp only [mainPhase]
          rw [if_pos hok, hfl]
        rw [hstep]
        exact ih t' (n + 1) r t1 n1 rest h
      | castFail t' =>
        rw [hfl] at h
        have hstep : mainPhase cfg emit buf t n (x :: xs) =
            mainPhase cfg emit buf t' (n + 1) xs := by
          simp only [mainPhase]
          rw [if_pos hok, hfl]
        rw [hstep]
        exact ih t' (n + 1) r t1 n1 rest h
    · rw [if_neg hok] at h
      have hstep : mainPhase cfg emit buf t n (x :: xs) =
          mainPhase cfg emit buf t (n + 1) xs := by
        simp only [mainPhase]
        rw [if_neg hok]
      rw [hstep]
      exact ih t (n + 1) r t1 n1 rest h

/-! ## Push and stream lemmas feeding the iteration theorems -/

/-- A push below capacity appends without eviction. -/
theorem pushData_no_evict (size : Int) (buf : List Row) (r : Row)
    (h : (buf.length : Int) + 1 ≤ size) : pushData size buf r = buf ++ [r] := by
  unfold pushData
  rw [if_neg]
  simp only [List.length_append, List.length_cons, List.length_nil]
  push_cast
  omega

/-- A push at (or beyond) capacity appends and evicts the front row. -/
theorem pushData_evict (size : Int) (buf : List Row) (r : Row)
    (h : size ≤ (buf.length : Int)) : pushData size buf r = (buf ++ [r]).drop 1 := by
  unfold pushData
  rw [if_pos]
  simp only [List.length_append, List.length_cons, List.length_nil]
  push_cast
  omega

/-- Repeated pushes below capacity append replicated rows. -/
theorem pushN_no_evict (size : Int) (r : Row) :
    ∀ (n : Nat) (buf : List Row), (buf.length : Int) + n ≤ size →
      pushN size buf r n = buf ++ List.replicate n r := by
  intro n
  induction n with
  | zero => intro buf h; simp [pushN]
  | succ m ih =>
    intro buf h
    have h1 : (buf.length : Int) + 1 ≤ size := by push_cast at h ⊢; omega
    simp only [pushN, pushData_no_evict size buf r h1]
    rw [ih (buf ++ [r]) (by simp; push_cast at h ⊢; omega)]
    simp [List.replicate_succ, List.append_assoc]

/-- Casting a concatenated stream splits at the concatenation, the tail
casting under the cache left by the head. -/
theorem castSeq_append : ∀ (xs : List RawRow) (t : Types) (ys : List RawRow),
    castSeq t (xs ++ ys) = castSeq t xs ++ castSeq (castTypes t xs) ys := by
  intro xs
  induction xs with
  | nil => intro t ys; simp [castSeq, castTypes]
  | cons x xs' ih =>
    intro t ys
    simp only [List.cons_append, castSeq, castTypes]
    cases hcr : castRow t x with
    | mk t' o =>
      cases o with
      | none => simp only [List.append_eq, ih t' ys]
      | some c => simp only [List.append_eq, ih t' ys, List.cons_append]

/-- The type cache after casting a concatenated stream. -/
theorem castTypes_append : ∀ (xs : List RawRow) (t : Types) (ys : List RawRow),
    castTypes t (xs ++ ys) = castTypes (castTypes t xs) ys := by
  intro xs
  induction xs with
  | nil => intro t ys; simp [castTypes]
  | cons x xs' ih =>
    intro t ys
    simp only [List.cons_append, castTypes]
    exact ih (castRow t x).1 ys

/-- Destructuring allPassB on a cons cell. -/
theorem allPass_cons {cfg : TSConfig} {t : Types} {r : RawRow} {rs : List RawRow}
    (h : allPassB cfg t (r :: rs) = true) :
    rowOkB cfg.ncols r = true ∧
      ∃ t' c, castRow t r = (t', some c) ∧ (∀ f ∈ cfg.filters, f c = false) ∧
        allPassB cfg t' rs = true := by
  simp only [allPassB, Bool.and_eq_true] at h
  obtain ⟨hok, h2⟩ := h
  refine ⟨hok, ?_⟩
  cases hcr : castRow t r with
  | mk t' o =>
    rw [hcr] at h2
    cases o with
    | none => simp at h2
    | some c =>
      simp only [Bool.and_eq_true, List.all_eq_true] at h2
      refine ⟨t', c, rfl, ?_, h2.2⟩
      intro f hf
      have := h2.1 f hf
      simp only [Bool.not_eq_eq_eq_not, Bool.not_true] at this
      exact this

/-- allPassB splits over a concatenation. -/
theorem allPass_split {cfg : TSConfig} : ∀ (xs : List RawRow) (t : Types)
    (ys : List RawRow), allPassB cfg t (xs ++ ys) = true →
    allPassB cfg t xs = true ∧ allPassB cfg (castTypes t xs) ys = true := by
  intro xs
  induction xs with
  | nil => intro t ys h; exact ⟨rfl, h⟩
  | cons x xs' ih =>
    intro t ys h
    obtain ⟨hok, t', c, hcr, hf, hall⟩ := allPass_cons h
    obtain ⟨h1, h2⟩ := ih t' ys hall
    constructor
    · simp only [allPassB, hcr, hok, Bool.true_and, Bool.and_eq_true, List.all_eq_true]
      refine ⟨?_, h1⟩
      intro f hf'
      simp only [Bool.not_eq_eq_eq_not, Bool.not_true]
      exact hf f hf'
    · simpa only [castTypes, hcr] using h2

/-- Under allPassB every row casts, so the casted stream has the same
length as the raw stream. -/
theorem castSeq_length (cfg : TSConfig) : ∀ (inp : List RawRow) (t : Types),
    allPassB cfg t inp = true → (castSeq t inp).length = inp.length := by
  intro inp
  induction inp with
  | nil => intro t _; rfl
  | cons r rs ih =>
    intro t h
    obtain ⟨-, t', c, hcr, -, hall⟩ := allPass_cons h
    simp only [castSeq, hcr, List.length_cons]
    rw [ih t' hall]

/-- The cast performed by __iter__ after _read_next agrees with the cast
recorded by castSeq, whether or not filters ran a cast before. -/
theorem castRow_after_read (cfg : TSConfig) {t t' : Types} {r : RawRow} {c : Row}
    (hcr : castRow t r = (t', some c)) :
    castRow (if cfg.filters.isEmpty then t else t') r = (t', some c) := by
  cases cfg.filters with
  | nil => simpa using hcr
  | cons f fs => simpa using castRow_stable r t t' c hcr

/-- The fill phase under a failure-free stream: up to its budget of rows
it pushes the casted rows in order (no eviction: the pre-roll plus the
budget never exceed the capacity), pads the shortfall with after-padding
and counts the real rows pushed. -/
theorem fill_good (cfg : TSConfig) :
    ∀ (m : Nat) (inp : List RawRow) (buf : List Row) (t : Types) (n : Nat),
      allPassB cfg t inp = true →
      buf.length + m ≤ cfg.wsize →
      fillPhase cfg m buf t n inp =
        (buf ++ castSeq t (inp.take m) ++
            List.replicate (m - inp.length) cfg.padAfter,
          castTypes t (inp.take m), n + min m inp.length, inp.drop m,
          min m inp.length, none) := by
  intro m
  induction m with
  | zero =>
    intro inp buf t n hall hlen
    simp [fillPhase, castSeq, castTypes]
  | succ m' ih =>
    intro inp buf t n hall hlen
    cases inp with
    | nil =>
      have hpush : pushN (cfg.wsize : Int) buf cfg.padAfter (m' + 1) =
          buf ++ List.replicate (m' + 1) cfg.padAfter := by
        apply pushN_no_evict
        push_cast
        omega
      simp only [fillPhase, readNext, hpush]
      simp [castSeq, castTypes]
    | cons r rest =>
      obtain ⟨hok, t', c, hcr, hf, hall'⟩ := allPass_cons hall
      have hread := readNext_good cfg t t' n r rest c hok hcr hf
      have hcast := castRow_after_read cfg hcr
      have hpush : pushData (cfg.wsize : Int) buf c = buf ++ [c] := by
        apply pushData_no_evict
        push_cast
        omega
      have hrec := ih rest (buf ++ [c]) t' (n + 1) hall'
        (by simp only [List.length_append, List.length_cons, List.length_nil]; omega)
      simp only [fillPhase, hread, hcast, hpush, hrec]
      simp only [List.take_succ_cons, List.drop_succ_cons, List.length_cons]
      rw [show castSeq t (r :: rest.take m') = c :: castSeq t' (rest.take m') by
        simp only [castSeq, hcr]]
      rw [show castTypes t (r :: rest.take m') = castTypes t' (rest.take m') by
        simp only [castTypes, hcr]]
      have e0 : m' + 1 - (rest.length + 1) = m' - rest.length := by omega
      have e2 : n + min (m' + 1) (rest.length + 1) = n + 1 + min m' rest.length := by omega
      have e3 : min (m' + 1) (rest.length + 1) = min m' rest.length + 1 := by omega
      have e1 : buf ++ (c :: castSeq t' (rest.take m')) ++
          List.replicate (m' - rest.length) cfg.padAfter =
          buf ++ [c] ++ castSeq t' (rest.take m') ++
            List.replicate (m' - rest.length) cfg.padAfter := by
        simp [List.append_assoc]
      rw [e0, e2, e3, e1]

/-- The main phase under a failure-free stream and an error-free yield
resolution: one output per remaining raw row, each the resolution of the
buffer row at the window offset, the buffer sliding over the casted
stream. -/
theorem main_good (cfg : TSConfig) (emit : Emit) (resolve : Row → Row)
    (hemit : ∀ b : List Row, emit b = .ok (resolve (b.getD cfg.woffset []))) :
    ∀ (inp : List RawRow) (buf : List Row) (t : Types) (n : Nat),
      allPassB cfg t inp = true →
      buf.length = cfg.wsize →
      cfg.woffset < cfg.wsize →
      mainPhase cfg emit buf t n inp =
        ((List.take inp.length (List.drop cfg.woffset (buf ++ castSeq t inp))).map resolve,
          List.drop inp.length (buf ++ castSeq t inp),
          castTypes t inp, n + inp.length, [], none) := by
  intro inp
  induction inp with
  | nil =>
    intro buf t n hall hlen hWO
    simp [mainPhase, castSeq, castTypes]
  | cons r rest ih =>
    intro buf t n hall hlen hWO
    obtain ⟨hok, t', c, hcr, hf, hall'⟩ := allPass_cons hall
    have hflr := filterLoop_ret t t' r c hcr cfg.filters hf
    have hcast := castRow_after_read cfg hcr
    have hpush : pushData (cfg.wsize : Int) buf c = (buf ++ [c]).drop 1 :=
      pushData_evict _ _ _ (by rw [hlen])
    have hlen' : ((buf ++ [c]).drop 1).length = cfg.wsize := by
      simp only [List.length_drop, List.length_append, List.length_cons, List.length_nil]
      omega
    have hrec := ih ((buf ++ [c]).drop 1) t' (n + 1) hall' hlen' hWO
    have hO : cfg.woffset < buf.length := by omega
    simp only [mainPhase, hok, if_true, hflr, hemit buf, hcast, hpush, hrec]
    rw [show castSeq t (r :: rest) = c :: castSeq t' rest by simp only [castSeq, hcr]]
    rw [show castTypes t (r :: rest) = castTypes t' rest by simp only [castTypes, hcr]]
    have hXeq : buf ++ c :: castSeq t' rest = (buf ++ [c]) ++ castSeq t' rest := by
      simp [List.append_assoc]
    have hXlen : cfg.woffset < (buf ++ c :: castSeq t' rest).length := by
      simp only [List.length_append, List.length_cons]
      omega
    have hdrop1 : (buf ++ c :: castSeq t' rest).drop 1 =
        (buf ++ [c]).drop 1 ++ castSeq t' rest := by
      rw [hXeq]
      exact List.drop_append_of_le_length (by simp)
    have hgetO : (buf ++ c :: castSeq t' rest)[cfg.woffset] = buf.getD cfg.woffset [] := by
      rw [List.getElem_append_left hO, List.getD_eq_getElem _ _ hO]
    have hstep : (buf ++ c :: castSeq t' rest).drop (cfg.woffset + 1) =
        ((buf ++ [c]).drop 1 ++ castSeq t' rest).drop cfg.woffset := by
      rw [← hdrop1, List.drop_drop, Nat.add_comm cfg.woffset 1]
    have hdropO : (buf ++ c :: castSeq t' rest).drop cfg.woffset =
        buf.getD cfg.woffset [] ::
          ((buf ++ [c]).drop 1 ++ castSeq t' rest).drop cfg.woffset := by
      rw [List.drop_eq_getElem_cons hXlen, List.cons.injEq]
      exact ⟨hgetO, hstep⟩
    have hdropL : (buf ++ c :: castSeq t' rest).drop (rest.length + 1) =
        ((buf ++ [c]).drop 1 ++ castSeq t' rest).drop rest.length := by
      rw [← hdrop1, List.drop_drop, Nat.add_comm rest.length 1]
    simp only [List.length_cons]
    have e1 : List.take (rest.length + 1) ((buf ++ c :: castSeq t' rest).drop cfg.woffset) =
        buf.getD cfg.woffset [] ::
          List.take rest.length (((buf ++ [c]).drop 1 ++ castSeq t' rest).drop cfg.woffset) := by
      rw [hdropO, List.take_succ_cons]
    have e3 : n + (rest.length + 1) = n + 1 + rest.length := by omega
    rw [e1, List.map_cons, hdropL, e3]

/-- The drain phase under an error-free yield resolution: one output per
remaining counted row, the buffer sliding over after-padding. -/
theorem drain_good (cfg : TSConfig) (emit : Emit) (resolve : Row → Row)
    (hemit : ∀ b : List Row, emit b = .ok (resolve (b.getD cfg.woffset []))) :
    ∀ (k : Nat) (buf : List Row),
      buf.length = cfg.wsize →
      cfg.woffset < cfg.wsize →
      drainPhase cfg emit k buf =
        (List.take k (List.drop cfg.woffset
            (buf ++ List.replicate k cfg.padAfter))).map resolve := by
  intro k
  induction k with
  | zero => intro buf hlen hWO; simp [drainPhase]
  | succ k' ih =>
    intro buf hlen hWO
    have hpush : pushData (cfg.wsize : Int) buf cfg.padAfter =
        (buf ++ [cfg.padAfter]).drop 1 :=
      pushData_evict _ _ _ (by rw [hlen])
    have hlen' : ((buf ++ [cfg.padAfter]).drop 1).length = cfg.wsize := by
      simp only [List.length_drop, List.length_append, List.length_cons, List.length_nil]
      omega
    have hO : cfg.woffset < buf.length := by omega
    have hrec := ih ((buf ++ [cfg.padAfter]).drop 1) hlen' hWO
    simp only [drainPhase, hemit buf, hpush, hrec]
    have hXeq : buf ++ List.replicate (k' + 1) cfg.padAfter =
        (buf ++ [cfg.padAfter]) ++ List.replicate k' cfg.padAfter := by
      rw [List.replicate_succ]
      simp [List.append_assoc]
    have hXlen : cfg.woffset < (buf ++ List.replicate (k' + 1) cfg.padAfter).length := by
      simp only [List.length_append, List.length_replicate]
      omega
    have hdrop1 : (buf ++ List.replicate (k' + 1) cfg.padAfter).drop 1 =
        (buf ++ [cfg.padAfter]).drop 1 ++ List.replicate k' cfg.padAfter := by
      rw [hXeq]
      exact List.drop_append_of_le_length (by simp)
    have hgetO : (buf ++ List.replicate (k' + 1) cfg.padAfter)[cfg.woffset] =
        buf.getD cfg.woffset [] := by
      rw [List.getElem_append_left hO, List.getD_eq_getElem _ _ hO]
    have hstep : (buf ++ List.replicate (k' + 1) cfg.padAfter).drop (cfg.woffset + 1) =
        ((buf ++ [cfg.padAfter]).drop 1 ++ List.replicate k' cfg.padAfter).drop
          cfg.woffset := by
      rw [← hdrop1, List.drop_drop, Nat.add_comm cfg.woffset 1]
    have hdropO : (buf ++ List.replicate (k' + 1) cfg.padAfter).drop cfg.woffset =
        buf.getD cfg.woffset [] ::
          ((buf ++ [cfg.padAfter]).drop 1 ++ List.replicate k' cfg.padAfter).drop
            cfg.woffset := by
      rw [List.drop_eq_getElem_cons hXlen, List.cons.injEq]
      exact ⟨hgetO, hstep⟩
    have e1 : List.take (k' + 1)
        ((buf ++ List.replicate (k' + 1) cfg.padAfter).drop cfg.woffset) =
        buf.getD cfg.woffset [] :: List.take k'
          (((buf ++ [cfg.padAfter]).drop 1 ++ List.replicate k' cfg.padAfter).drop
            cfg.woffset) := by
      rw [hdropO, List.take_succ_cons]
    rw [e1, List.map_cons]
    simp only [List.singleton_append]

/-- List bookkeeping for the case where the stream at least fills the
window: the main-phase outputs followed by the drain-phase outputs cover
the casted stream exactly once. -/
theorem assembleA (O : Nat) (P cs1 cs2 : List Row) (apad : Row) (hP : P.length = O) :
    List.take cs2.length (List.drop O ((P ++ cs1) ++ cs2)) ++
      List.take cs1.length (List.drop O
        (List.drop cs2.length ((P ++ cs1) ++ cs2) ++ List.replicate cs1.length apad)) =
      cs1 ++ cs2 := by
  have hX : (P ++ cs1) ++ cs2 = P ++ (cs1 ++ cs2) := by simp [List.append_assoc]
  have hdropO : ((P ++ cs1) ++ cs2).drop O = cs1 ++ cs2 := by
    rw [hX, ← hP]
    exact List.drop_left P (cs1 ++ cs2)
  have h2a : List.drop cs2.length ((P ++ cs1) ++ cs2) ++ List.replicate cs1.length apad =
      List.drop cs2.length (((P ++ cs1) ++ cs2) ++ List.replicate cs1.length apad) :=
    (List.drop_append_of_le_length (by simp only [List.length_append]; omega)).symm
  have h2c : List.drop O (List.drop cs2.length (((P ++ cs1) ++ cs2) ++
      List.replicate cs1.length apad)) =
      List.drop cs2.length ((cs1 ++ cs2) ++ List.replicate cs1.length apad) := by
    rw [List.drop_drop]
    rw [show ((P ++ cs1) ++ cs2) ++ List.replicate cs1.length apad =
      P ++ ((cs1 ++ cs2) ++ List.replicate cs1.length apad) from by simp [List.append_assoc]]
    rw [show cs2.length + O = O + cs2.length from by omega]
    rw [← List.drop_drop, ← hP, List.drop_left]
  have h2d : List.drop cs2.length ((cs1 ++ cs2) ++ List.replicate cs1.length apad) =
      List.drop cs2.length (cs1 ++ cs2) ++ List.replicate cs1.length apad :=
    List.drop_append_of_le_length (by simp)
  have h2e : List.take cs1.length (List.drop cs2.length (cs1 ++ cs2) ++
      List.replicate cs1.length apad) = List.drop cs2.length (cs1 ++ cs2) :=
    List.take_left' (by rw [List.length_drop, List.length_append]; omega)
  rw [hdropO, h2a, h2c, h2d, h2e]
  exact List.take_append_drop cs2.length (cs1 ++ cs2)

/-- List bookkeeping for the case where the stream is shorter than the
window lookahead: the drain phase alone emits the casted stream. -/
theorem assembleB (O : Nat) (P cs1 E : List Row) (apad : Row) (hP : P.length = O) :
    List.take cs1.length (List.drop O (((P ++ cs1) ++ E) ++
      List.replicate cs1.length apad)) = cs1 := by
  have hX : ((P ++ cs1) ++ E) ++ List.replicate cs1.length apad =
      P ++ (cs1 ++ (E ++ List.replicate cs1.length apad)) := by simp [List.append_assoc]
  rw [hX, ← hP, List.drop_left]
  exact List.take_left' rfl

/-- Combined list bookkeeping: in every terminating pass either the fill
phase needed no after-padding (the stream at least filled the lookahead)
or the main phase had nothing left to read. -/
theorem assemble_both (O : Nat) (P cs1 cs2 E : List Row) (apad : Row)
    (hP : P.length = O) (hdisj : E = [] ∨ cs2 = []) :
    List.take cs2.length (List.drop O (((P ++ cs1) ++ E) ++ cs2)) ++
      List.take cs1.length (List.drop O
        (List.drop cs2.length (((P ++ cs1) ++ E) ++ cs2) ++
          List.replicate cs1.length apad)) =
      cs1 ++ cs2 := by
  cases hdisj with
  | inl hE =>
    subst hE
    simpa using assembleA O P cs1 cs2 apad hP
  | inr h2 =>
    subst h2
    simpa using assembleB O P cs1 E apad hP

/-- Claim C1: for a failure-free stream of L valid rows under a
configuration with window_offset below window_size, when the resolution of
each yielded row succeeds (it returns the buffered row at the window
offset, up to the resolution function adding derived values), the
iteration completes without a fatal error and yields exactly L rows: the
casted input rows, each exactly once, in input order. -/
theorem iter_yields_all_rows (cfg : TSConfig) (emit : Emit) (resolve : Row → Row)
    (inp : List RawRow)
    (hWO : cfg.woffset < cfg.wsize)
    (hemit : ∀ b : List Row, emit b = .ok (resolve (b.getD cfg.woffset [])))
    (hall : allPassB cfg [] inp = true) :
    timesliceRun cfg emit inp = ((castSeq [] inp).map resolve, none) ∧
      (castSeq [] inp).length = inp.length := by
  refine ⟨?_, castSeq_length cfg inp [] hall⟩
  have hpre : pushN (cfg.wsize : Int) [] cfg.padBefore cfg.woffset =
      List.replicate cfg.woffset cfg.padBefore := by
    have h := pushN_no_evict (cfg.wsize : Int) cfg.padBefore cfg.woffset []
      (by simp only [List.length_nil]; push_cast; omega)
    simpa using h
  have hallsplit : allPassB cfg [] (inp.take (cfg.wsize - cfg.woffset) ++
      inp.drop (cfg.wsize - cfg.woffset)) = true := by
    rw [List.take_append_drop]; exact hall
  obtain ⟨hall1, hall2⟩ := allPass_split _ _ _ hallsplit
  have hlen1 : (castSeq [] (inp.take (cfg.wsize - cfg.woffset))).length =
      min (cfg.wsize - cfg.woffset) inp.length := by
    rw [castSeq_length cfg _ _ hall1, List.length_take]
  have hlen2 : (castSeq (castTypes [] (inp.take (cfg.wsize - cfg.woffset)))
      (inp.drop (cfg.wsize - cfg.woffset))).length = inp.length -
        (cfg.wsize - cfg.woffset) := by
    rw [castSeq_length cfg _ _ hall2, List.length_drop]
  have hfill := fill_good cfg (cfg.wsize - cfg.woffset) inp
    (List.replicate cfg.woffset cfg.padBefore) [] 0 hall
    (by rw [List.length_replicate]; omega)
  have hbuf1len : (List.replicate cfg.woffset cfg.padBefore ++
      castSeq [] (inp.take (cfg.wsize - cfg.woffset)) ++
      List.replicate ((cfg.wsize - cfg.woffset) - inp.length) cfg.padAfter).length =
      cfg.wsize := by
    simp only [List.length_append, List.length_replicate]
    omega
  have hmain := main_good cfg emit resolve hemit (inp.drop (cfg.wsize - cfg.woffset))
    (List.replicate cfg.woffset cfg.padBefore ++
      castSeq [] (inp.take (cfg.wsize - cfg.woffset)) ++
      List.replicate ((cfg.wsize - cfg.woffset) - inp.length) cfg.padAfter)
    (castTypes [] (inp.take (cfg.wsize - cfg.woffset)))
    (0 + min (cfg.wsize - cfg.woffset) inp.length) hall2 hbuf1len hWO
  have hb2len : (List.drop (inp.drop (cfg.wsize - cfg.woffset)).length
      ((List.replicate cfg.woffset cfg.padBefore ++
        castSeq [] (inp.take (cfg.wsize - cfg.woffset)) ++
        List.replicate ((cfg.wsize - cfg.woffset) - inp.length) cfg.padAfter) ++
        castSeq (castTypes [] (inp.take (cfg.wsize - cfg.woffset)))
          (inp.drop (cfg.wsize - cfg.woffset)))).length = cfg.wsize := by
    rw [List.length_drop, List.length_append, hbuf1len, List.length_drop, hlen2]
    omega
  have hdrain := drain_good cfg emit resolve hemit
    (min (cfg.wsize - cfg.woffset) inp.length)
    (List.drop (inp.drop (cfg.wsize - cfg.woffset)).length
      ((List.replicate cfg.woffset cfg.padBefore ++
        castSeq [] (inp.take (cfg.wsize - cfg.woffset)) ++
        List.replicate ((cfg.wsize - cfg.woffset) - inp.length) cfg.padAfter) ++
        castSeq (castTypes [] (inp.take (cfg.wsize - cfg.woffset)))
          (inp.drop (cfg.wsize - cfg.woffset)))) hb2len hWO
  simp only [timesliceRun, timesliceRunFrom, hpre, hfill, hmain, hdrain]
  rw [← List.map_append]
  have hcast_split : castSeq [] inp =
      castSeq [] (inp.take (cfg.wsize - cfg.woffset)) ++
        castSeq (castTypes [] (inp.take (cfg.wsize - cfg.woffset)))
          (inp.drop (cfg.wsize - cfg.woffset)) := by
    conv_lhs => rw [← List.take_append_drop (cfg.wsize - cfg.woffset) inp]
    rw [castSeq_append]
  rw [hcast_split]
  have hcount2 : (inp.drop (cfg.wsize - cfg.woffset)).length =
      (castSeq (castTypes [] (inp.take (cfg.wsize - cfg.woffset)))
        (inp.drop (cfg.wsize - cfg.woffset))).length := by
    rw [hlen2, List.length_drop]
  have hcount1 : min (cfg.wsize - cfg.woffset) inp.length =
      (castSeq [] (inp.take (cfg.wsize - cfg.woffset))).length := hlen1.symm
  rw [hcount2, hcount1]
  rw [Prod.mk.injEq]
  refine ⟨?_, rfl⟩
  apply congrArg (List.map resolve)
  apply assemble_both cfg.woffset _ _ _ _ cfg.padAfter (List.length_replicate _ _)
  by_cases hcase : cfg.wsize - cfg.woffset ≤ inp.length
  · left
    rw [Nat.sub_eq_zero_of_le hcase]
    exact List.replicate_zero
  · right
    rw [List.drop_eq_nil_of_le (by omega)]
    rfl

/-- Witness for C1: the doctest stream of four valid rows under window
(3, 1) yields exactly the four casted rows, in order, with no fatal
error. -/
theorem iter_yields_all_rows_witness :
    timesliceRun exCfgFour (exEmitAt 1) exInpFour =
        ((castSeq [] exInpFour).map id, none) ∧
      (castSeq [] exInpFour).length = exInpFour.length :=
  iter_yields_all_rows exCfgFour (exEmitAt 1) id exInpFour (by decide)
    (fun b => rfl) (by decide)

/-! ## Claim C10: determinism of iteration -/

/-- _read_next behaves identically from any starting value of the
diagnostic row counter: the returned row, type cache and remaining input
do not depend on it, and the counter advances by the same amount. -/
theorem readNext_count (cfg : TSConfig) :
    ∀ (inp : List RawRow) (t : Types) (a b : Nat),
      (readNext cfg t a inp = none → readNext cfg t b inp = none) ∧
        (∀ r t' n' rest, readNext cfg t a inp = some (r, t', n', rest) →
          ∃ k, n' = a + k ∧ readNext cfg t b inp = some (r, t', b + k, rest)) := by
  intro inp
  induction inp with
  | nil =>
    intro t a b
    exact ⟨fun _ => rfl, fun r t' n' rest h => by simp [readNext] at h⟩
  | cons x xs ih =>
    intro t a b
    simp only [readNext]
    by_cases hok : rowOkB cfg.ncols x = true
    · rw [if_pos hok, if_pos hok]
      cases hfl : filterLoop t x cfg.filters with
      | ret t1 =>
        refine ⟨fun h => by simp at h, ?_⟩
        intro r t' n' rest h
        simp only [Option.some.injEq, Prod.mk.injEq] at h
        obtain ⟨h1, h2, h3, h4⟩ := h
        exact ⟨1, by omega, by rw [← h1, ← h2, ← h4]⟩
      | matched t1 =>
        obtain ⟨ihn, ihs⟩ := ih t1 (a + 1) (b + 1)
        refine ⟨ihn, ?_⟩
        intro r t' n' rest h
        obtain ⟨k, hk, hb⟩ := ihs r t' n' rest h
        refine ⟨k + 1, by omega, ?_⟩
        show readNext cfg t1 (b + 1) xs = some (r, t', b + (k + 1), rest)
        rw [hb, show b + 1 + k = b + (k + 1) from by omega]
      | castFail t1 =>
        obtain ⟨ihn, ihs⟩ := ih t1 (a + 1) (b + 1)
        refine ⟨ihn, ?_⟩
        intro r t' n' rest h
        obtain ⟨k, hk, hb⟩ := ihs r t' n' rest h
        refine ⟨k + 1, by omega, ?_⟩
        show readNext cfg t1 (b + 1) xs = some (r, t', b + (k + 1), rest)
        rw [hb, show b + 1 + k = b + (k + 1) from by omega]
    · rw [if_neg hok, if_neg hok]
      obtain ⟨ihn, ihs⟩ := ih t (a + 1) (b + 1)
      refine ⟨ihn, ?_⟩
      intro r t' n' rest h
      obtain ⟨k, hk, hb⟩ := ihs r t' n' rest h
      refine ⟨k + 1, by omega, ?_⟩
      show readNext cfg t (b + 1) xs = some (r, t', b + (k + 1), rest)
      rw [hb, show b + 1 + k = b + (k + 1) from by omega]

/-- The fill phase behaves identically from any starting row counter. -/
theorem fill_count (cfg : TSConfig) :
    ∀ (m : Nat) (inp : List RawRow) (buf : List Row) (t : Types) (a b : Nat),
      ∃ B T d I K F,
        fillPhase cfg m buf t a inp = (B, T, a + d, I, K, F) ∧
          fillPhase cfg m buf t b inp = (B, T, b + d, I, K, F) := by
  intro m
  induction m with
  | zero =>
    intro inp buf t a b
    exact ⟨buf, t, 0, inp, 0, none, by simp [fillPhase], by simp [fillPhase]⟩
  | succ m' ih =>
    intro inp buf t a b
    cases hra : readNext cfg t a inp with
    | none =>
      have hrb := (readNext_count cfg inp t a b).1 hra
      refine ⟨pushN (cfg.wsize : Int) buf cfg.padAfter (m' + 1), t, 0, inp, 0, none,
        ?_, ?_⟩
      · simp only [fillPhase, hra]
        rfl
      · simp only [fillPhase, hrb]
        rfl
    | some q =>
      obtain ⟨r, t1, n1, rest⟩ := q
      obtain ⟨k, hk, hrb⟩ := (readNext_count cfg inp t a b).2 r t1 n1 rest hra
      cases hcr : castRow t1 r with
      | mk t2 o =>
        cases o with
        | none =>
          refine ⟨buf, t2, k, rest, 0, some .castErr, ?_, ?_⟩
          · simp only [fillPhase, hra, hcr, ← hk]
          · simp only [fillPhase, hrb, hcr]
        | some c =>
          obtain ⟨B, T, d', I, K, F, hfa, hfb⟩ :=
            ih rest (pushData (cfg.wsize : Int) buf c) t2 (a + k) (b + k)
          refine ⟨B, T, k + d', I, K + 1, F, ?_, ?_⟩
          · simp only [fillPhase, hra, hcr, hk, hfa]
            rw [show a + k + d' = a + (k + d') from by omega]
          · simp only [fillPhase, hrb, hcr, hfb]
            rw [show b + k + d' = b + (k + d') from by omega]

/-- The main phase behaves identically from any starting row counter. -/
theorem main_count (cfg : TSConfig) (emit : Emit) :
    ∀ (inp : List RawRow) (buf : List Row) (t : Types) (a b : Nat),
      ∃ Os B T d I F,
        mainPhase cfg emit buf t a inp = (Os, B, T, a + d, I, F) ∧
          mainPhase cfg emit buf t b inp = (Os, B, T, b + d, I, F) := by
  intro inp
  induction inp with
  | nil =>
    intro buf t a b
    exact ⟨[], buf, t, 0, [], none, by simp [mainPhase], by simp [mainPhase]⟩
  | cons x xs ih =>
    intro buf t a b
    by_cases hok : rowOkB cfg.ncols x = true
    · cases hfl : filterLoop t x cfg.filters with
      | ret t1 =>
        cases hemit : emit buf with
        | error e =>
          cases e with
          | zeroDiv =>
            refine ⟨[], buf, t1, 1, xs, some .zeroDiv, ?_, ?_⟩ <;>
              simp only [mainPhase, hok, if_true, hfl, hemit]
          | other =>
            cases hcr : castRow t1 x with
            | mk t2 o =>
              cases o with
              | none =>
                refine ⟨[], buf, t2, 1, xs, some .castErr, ?_, ?_⟩ <;>
                  simp only [mainPhase, hok, if_true, hfl, hemit, hcr]
              | some c =>
                obtain ⟨Os, B, T, d', I, F, hma, hmb⟩ :=
                  ih (pushData (cfg.wsize : Int) buf c) t2 (a + 1) (b + 1)
                refine ⟨Os, B, T, 1 + d', I, F, ?_, ?_⟩
                · simp only [mainPhase, hok, if_true, hfl, hemit, hcr, hma]
                  rw [show a + 1 + d' = a + (1 + d') from by omega]
                · simp only [mainPhase, hok, if_true, hfl, hemit, hcr, hmb]
                  rw [show b + 1 + d' = b + (1 + d') from by omega]
        | ok v =>
          cases hcr : castRow t1 x with
          | mk t2 o =>
            cases o with
            | none =>
              refine ⟨[v], buf, t2, 1, xs, some .castErr, ?_, ?_⟩ <;>
                simp only [mainPhase, hok, if_true, hfl, hemit, hcr]
            | some c =>
              obtain ⟨Os, B, T, d', I, F, hma, hmb⟩ :=
                ih (pushData (cfg.wsize : Int) buf c) t2 (a + 1) (b + 1)
              refine ⟨v :: Os, B, T, 1 + d', I, F, ?_, ?_⟩
              · simp only [mainPhase, hok, if_true, hfl, hemit, hcr, hma]
                rw [show a + 1 + d' = a + (1 + d') from by omega]
              · simp only [mainPhase, hok, if_true, hfl, hemit, hcr, hmb]
                rw [show b + 1 + d' = b + (1 + d') from by omega]
      | matched t1 =>
        obtain ⟨Os, B, T, d', I, F, hma, hmb⟩ := ih buf t1 (a + 1) (b + 1)
        refine ⟨Os, B, T, 1 + d', I, F, ?_, ?_⟩
        · simp only [mainPhase, hok, if_true, hfl, hma]
          rw [show a + 1 + d' = a + (1 + d') from by omega]
        · simp only [mainPhase, hok, if_true, hfl, hmb]
          rw [show b + 1 + d' = b + (1 + d') from by omega]
      | castFail t1 =>
        obtain ⟨Os, B, T, d', I, F, hma, hmb⟩ := ih buf t1 (a + 1) (b + 1)
        refine ⟨Os, B, T, 1 + d', I, F, ?_, ?_⟩
        · simp only [mainPhase, hok, if_true, hfl, hma]
          rw [show a + 1 + d' = a + (1 + d') from by omega]
        · simp only [mainPhase, hok, if_true, hfl, hmb]
          rw [show b + 1 + d' = b + (1 + d') from by omega]
    · obtain ⟨Os, B, T, d', I, F, hma, hmb⟩ := ih buf t (a + 1) (b + 1)
      refine ⟨Os, B, T, 1 + d', I, F, ?_, ?_⟩
      · simp only [mainPhase]
        rw [if_neg hok, hma, show a + 1 + d' = a + (1 + d') from by omega]
      · simp only [mainPhase]
        rw [if_neg hok, hmb, show b + 1 + d' = b + (1 + d') from by omega]

/-- Claim C10: iteration is a function of the input stream and the
configuration alone.  The only per-instance state beyond those is the
diagnostic row counter, and two passes started from any two counter values
 — in particular two fresh instances, both starting from zero with empty
type caches over the same stream — produce identical output sequences and
identical fatal outcomes. -/
theorem iteration_deterministic (cfg : TSConfig) (emit : Emit) (inp : List RawRow)
    (a b : Nat) :
    timesliceRunFrom cfg emit a inp = timesliceRunFrom cfg emit b inp := by
  obtain ⟨B, T, d, I, K, F, hfa, hfb⟩ := fill_count cfg (cfg.wsize - cfg.woffset) inp
    (pushN (cfg.wsize : Int) [] cfg.padBefore cfg.woffset) [] a b
  simp only [timesliceRunFrom, hfa, hfb]
  cases F with
  | some e => rfl
  | none =>
    obtain ⟨Os, B', T', d', I', F', hma, hmb⟩ := main_count cfg emit I B T (a + d) (b + d)
    simp only [hma, hmb]
    cases F' <;> rfl

/-! ## Claim C7: routing of evaluation errors during yields -/

/-- Counterexample to C7 as stated: a ZeroDivisionError raised while
yielding in the drain phase is logged and swallowed — the pass completes
normally with no fatal error — whereas the claim requires it to be
re-raised there as in the main phase. -/
theorem drain_zerodiv_swallowed :
    timesliceRun exCfgNoFilter exEmitZeroDiv exInpOne = ([], none) := by
  rfl

/-- Amended C7: in the main phase a ZeroDivisionError from the yield is
logged and re-raised, aborting the pull, and any other evaluation error is
logged and swallowed with iteration continuing; in the drain phase every
evaluation error, ZeroDivisionError included, is logged and swallowed and
iteration continues. -/
theorem eval_error_routing (cfg : TSConfig) (emit : Emit) (buf : List Row) (t : Types)
    (n : Nat) (inp : List RawRow) (r : RawRow) (t1 : Types) (n1 : Nat)
    (rest : List RawRow)
    (hread : readNext cfg t n inp = some (r, t1, n1, rest)) :
    (emit buf = .error .zeroDiv →
        mainPhase cfg emit buf t n inp = ([], buf, t1, n1, rest, some .zeroDiv)) ∧
      (∀ (t2 : Types) (c : Row), emit buf = .error .other → castRow t1 r = (t2, some c) →
        mainPhase cfg emit buf t n inp =
          mainPhase cfg emit (pushData (cfg.wsize : Int) buf c) t2 n1 rest) ∧
      (∀ (e : EvalErr) (k : Nat), emit buf = .error e →
        drainPhase cfg emit (k + 1) buf =
          drainPhase cfg emit k (pushData (cfg.wsize : Int) buf cfg.padAfter)) := by
  refine ⟨?_, ?_, ?_⟩
  · intro hemit
    rw [mainPhase_step cfg emit buf inp t n r t1 n1 rest hread]
    simp only [hemit]
  · intro t2 c hemit hcast
    rw [mainPhase_step cfg emit buf inp t n r t1 n1 rest hread]
    simp only [hemit, hcast]
  · intro e k hemit
    simp only [drainPhase, hemit, List.nil_append]

/-- Witness for the amended C7, instantiating all three branches on
concrete one-column states. -/
theorem eval_error_routing_witness :
    (mainPhase exCfgNoFilter exEmitZeroDiv [[("col1", PyVal.num 1)]]
        [(some "col1", PyType.float)] 0 [[(some "col1", "2")]] =
      ([], [[("col1", PyVal.num 1)]], [(some "col1", PyType.float)], 1, [],
        some .zeroDiv)) ∧
      (mainPhase exCfgNoFilter (fun _ => .error .other) [[("col1", PyVal.num 1)]]
          [(some "col1", PyType.float)] 0 [[(some "col1", "2")]] =
        mainPhase exCfgNoFilter (fun _ => .error .other)
          (pushData 2 [[("col1", PyVal.num 1)]] [("col1", PyVal.num 2)])
          [(some "col1", PyType.float)] 1 []) ∧
      (drainPhase exCfgNoFilter exEmitZeroDiv 1 [[("col1", PyVal.num 1)]] =
        drainPhase exCfgNoFilter exEmitZeroDiv 0
          (pushData 2 [[("col1", PyVal.num 1)]] exCfgNoFilter.padAfter)) := by
  refine ⟨?_, ?_, ?_⟩
  · exact (eval_error_routing exCfgNoFilter exEmitZeroDiv [[("col1", PyVal.num 1)]]
      [(some "col1", PyType.float)] 0 [[(some "col1", "2")]] [(some "col1", "2")]
      [(some "col1", PyType.float)] 1 [] rfl).1 rfl
  · exact (eval_error_routing exCfgNoFilter (fun _ => .error .other)
      [[("col1", PyVal.num 1)]] [(some "col1", PyType.float)] 0 [[(some "col1", "2")]]
      [(some "col1", "2")] [(some "col1", PyType.float)] 1 [] rfl).2.1
      [(some "col1", PyType.float)] [("col1", PyVal.num 2)] rfl (by decide)
  · exact (eval_error_routing exCfgNoFilter exEmitZeroDiv [[("col1", PyVal.num 1)]]
      [(some "col1", PyType.float)] 0 [[(some "col1", "2")]] [(some "col1", "2")]
      [(some "col1", PyType.float)] 1 [] rfl).2.2 .zeroDiv 0 rfl

end Timeslice
